import Mathlib

/-!
Verification of the ZincX UI-toolkit core (rendering/event pipeline).

Shallow embedding of:
- the geometry/enum value types of src/src/common/ZCommon.h and ZCommonEnums.h;
- the event family of src/src/event/ZEvent.h;
- the event queue/dispatch loop of src/src/event/ZEventManager.cpp;
- the paint-order item list of src/src/graphics/ZGraphicsView.h
  (addItem / removeItem / render).

Drawable items (class ZGraphicsItem) carry only an identity and a mutable
WidgetState here: the class body is not present in the sources (only its
forward declaration and its uses), so, modelled from the spec, an item is
"anything exposing draw + setState", `setState` being an unconditional
mutation.  Items are referred to by pointer identity; we model identities
as natural numbers and the state of all items as a function from identity
to WidgetState.

Listener callbacks are arbitrary client code receiving `const ZEvent&`.
The only manager-mutating operation a callback can reach in the modelled
claims is `queueEvent`, so a callback is modelled by the list of events it
enqueues for a received event; dispatch records every callback invocation
and every built-in `setState` in an action trace.
-/

namespace ZincX

/-- WidgetState from src/src/common/ZCommonEnums.h. -/
inductive WidgetState
  | Normal
  | Hovered
  | Pressed
  | Disabled
deriving DecidableEq

/-- EventType as defined in src/src/common/ZCommonEnums.h has exactly the
enumerators MouseClick, KeyPress, TouchStart.  The dispatch loop in
src/src/event/ZEventManager.cpp additionally references
ZincX::EventType::MouseRelease, which is missing from the closed enum
(the spec notes this as a likely defect of the source).  Modelled from the
spec: the constructor MouseRelease is added here so that the dispatch
logic of ZEventManager.cpp is embeddable; `EventType.inSource` below marks
the enumerators that actually exist in ZCommonEnums.h. -/
inductive EventType
  | MouseClick
  | KeyPress
  | TouchStart
  | MouseRelease
deriving DecidableEq

/-- The enumerators of EventType that are really declared in
src/src/common/ZCommonEnums.h (MouseRelease is not). -/
def EventType.inSource : EventType → Bool
  | .MouseClick => true
  | .KeyPress => true
  | .TouchStart => true
  | .MouseRelease => false

/-- InputDeviceType from src/src/common/ZCommonEnums.h. -/
inductive InputDeviceType
  | Mouse
  | Keyboard
  | Touchpad
deriving DecidableEq

/-- KeyModifier from src/src/common/ZCommonEnums.h. -/
inductive KeyModifier
  | None
  | Shift
  | Ctrl
  | Alt
deriving DecidableEq

/-- ZPoint from src/src/common/ZCommon.h (two ints). -/
structure ZPoint where
  x : Int
  y : Int
deriving DecidableEq

/-- ZPadding from src/src/common/ZCommon.h. -/
structure ZPadding where
  left : Int
  top : Int
  right : Int
  bottom : Int
deriving DecidableEq

/-- ZRect from src/src/common/ZCommon.h. -/
structure ZRect where
  x : Int
  y : Int
  width : Int
  height : Int
deriving DecidableEq

/-- ZRect::deflate from src/src/common/ZCommon.h:
returns { x + padding.left, y + padding.top,
          width - padding.left - padding.right,
          height - padding.top - padding.bottom }. -/
def ZRect.deflate (r : ZRect) (padding : ZPadding) : ZRect :=
  ⟨r.x + padding.left, r.y + padding.top,
   r.width - padding.left - padding.right,
   r.height - padding.top - padding.bottom⟩

/-- The closed event family of src/src/event/ZEvent.h: the base ZEvent
(type, timestamp, deviceType) and the derived ZMouseEvent which adds
position, button and modifiers and always binds deviceType = Mouse in its
constructor.  A successful dynamic_cast<ZMouseEvent*> corresponds exactly
to the `mouse` constructor. -/
inductive ZEvent
  | base (t : EventType) (timestamp : Nat) (deviceType : InputDeviceType)
  | mouse (t : EventType) (timestamp : Nat) (position : ZPoint)
      (button : Int) (modifiers : KeyModifier)
deriving DecidableEq

/-- The `type` field of a ZEvent. -/
def ZEvent.etype : ZEvent → EventType
  | .base t _ _ => t
  | .mouse t _ _ _ _ => t

/-- The `timestamp` field of a ZEvent. -/
def ZEvent.tstamp : ZEvent → Nat
  | .base _ ts _ => ts
  | .mouse _ ts _ _ _ => ts

/-- The `deviceType` field of a ZEvent; the ZMouseEvent constructor always
passes InputDeviceType::Mouse to the base. -/
def ZEvent.deviceType : ZEvent → InputDeviceType
  | .base _ _ d => d
  | .mouse _ _ _ _ _ => InputDeviceType.Mouse

/-- Whether the dynamic type is ZMouseEvent, i.e. whether
`dynamic_cast<ZMouseEvent*>(event.get())` succeeds in the dispatch loop. -/
def ZEvent.isMouseVariant : ZEvent → Bool
  | .base _ _ _ => false
  | .mouse _ _ _ _ _ => true

/-- The constructor ZEvent(EventType t, InputDeviceType device) from
src/src/event/ZEvent.h: type(t), timestamp(0), deviceType(device). -/
def zEventCtor (t : EventType) (device : InputDeviceType) : ZEvent :=
  ZEvent.base t 0 device

/-- The constructor call ZEvent(t) with the defaulted second argument
`device = ZincX::InputDeviceType::Mouse` from src/src/event/ZEvent.h. -/
def zEventCtorDefault (t : EventType) : ZEvent :=
  zEventCtor t InputDeviceType.Mouse

/-- The constructor ZMouseEvent(t, pos, btn, mod) from src/src/event/ZEvent.h:
delegates to ZEvent(t, InputDeviceType::Mouse), so timestamp = 0. -/
def zMouseEventCtor (t : EventType) (pos : ZPoint) (btn : Int)
    (mod : KeyModifier) : ZEvent :=
  ZEvent.mouse t 0 pos btn mod

/-- One (item, callback) registration of ZEventManager::registerListener.
The item is a ZGraphicsItem* identity; the callback is modelled by the
events it enqueues via queueEvent when invoked on a given event. -/
structure Listener where
  item : Nat
  cb : ZEvent → List ZEvent

/-- Item states: ZGraphicsItem identities mapped to their WidgetState. -/
def ItemStates : Type := Nat → WidgetState

/-- ZGraphicsItem::setState, modelled from the spec: an unconditional
mutation of the named item's state. -/
def setState (s : ItemStates) (it : Nat) (w : WidgetState) : ItemStates :=
  fun j => if j = it then w else s j

/-- Observable steps of a dispatch pass: a callback invocation
`callback(*event)` (tagged with the listener's registration index), or a
built-in-rule state update `item->setState(w)`. -/
inductive Action
  | invoke (listenerIdx : Nat) (e : ZEvent)
  | setSt (item : Nat) (w : WidgetState)
deriving DecidableEq

/-- The built-in state rule in the body of ZEventManager::dispatchEvents
(src/src/event/ZEventManager.cpp lines 22-28): if the dynamic cast to
ZMouseEvent succeeds, then on type MouseClick the listener's item state
becomes Pressed, else on type MouseRelease it becomes Normal; otherwise
nothing happens.  Returns the new states and the emitted trace. -/
def builtinRule (e : ZEvent) (it : Nat) (s : ItemStates) :
    ItemStates × List Action :=
  match e with
  | .mouse t _ _ _ _ =>
    if t = EventType.MouseClick then
      (setState s it WidgetState.Pressed, [Action.setSt it WidgetState.Pressed])
    else if t = EventType.MouseRelease then
      (setState s it WidgetState.Normal, [Action.setSt it WidgetState.Normal])
    else (s, [])
  | .base _ _ _ => (s, [])

/-- The inner `for (auto& [item, callback] : listeners_)` loop of
ZEventManager::dispatchEvents, processing one dequeued event: for each
listener in registration order, invoke its callback (collecting the events
the callback enqueues), then apply the built-in state rule to that
listener's item.  `i` is the registration index of the first listener in
`ls`.  Returns (new item states, events enqueued by the callbacks in
order, emitted action trace). -/
def handleListenersAux : List Listener → Nat → ZEvent → ItemStates →
    ItemStates × List ZEvent × List Action
  | [], _, _, s => (s, [], [])
  | l :: rest, i, e, s =>
    let enq := l.cb e
    let sr := builtinRule e l.item s
    let r := handleListenersAux rest (i + 1) e sr.1
    (r.1, enq ++ r.2.1, Action.invoke i e :: (sr.2 ++ r.2.2))

/-- The listener loop started at registration index 0. -/
def handleListeners (ls : List Listener) (e : ZEvent) (s : ItemStates) :
    ItemStates × List ZEvent × List Action :=
  handleListenersAux ls 0 e s

/-- The events enqueued during the handling of one event: the
concatenation, in registration order, of every callback's enqueues. -/
def cbOut (ls : List Listener) (e : ZEvent) : List ZEvent :=
  match ls with
  | [] => []
  | l :: rest => l.cb e ++ cbOut rest e

/-- Result of a completed dispatch pass: the remaining queue (always empty
on normal return, since the while loop only exits on an empty queue), the
final item states, the dequeued events in dispatch order, and the action
trace. -/
structure DispatchResult where
  queue : List ZEvent
  states : ItemStates
  processed : List ZEvent
  trace : List Action

/-- ZEventManager::dispatchEvents (src/src/event/ZEventManager.cpp lines
15-31): while the queue is non-empty, pop the head event and run the
listener loop on it; events enqueued by callbacks go to the tail of the
FIFO queue.  The C++ loop has no bound; `fuel` bounds the number of loop
iterations so the function is total, and `none` means the pass did not
finish within `fuel` dequeues. -/
def dispatchAux (ls : List Listener) :
    Nat → List ZEvent → ItemStates → Option DispatchResult
  | _, [], s => some ⟨[], s, [], []⟩
  | 0, _ :: _, _ => none
  | n + 1, e :: rest, s =>
    let h := handleListenersAux ls 0 e s
    match dispatchAux ls n (rest ++ h.2.1) h.1 with
    | none => none
    | some r => some ⟨r.queue, r.states, e :: r.processed, h.2.2 ++ r.trace⟩

/-- The action trace of a dispatch pass (empty if the pass did not finish
within the fuel). -/
def dispatchActions (ls : List Listener) (n : Nat) (q : List ZEvent)
    (s : ItemStates) : List Action :=
  match dispatchAux ls n q s with
  | some r => r.trace
  | none => []

/-- The callback invocations of a trace, in order, as
(listener registration index, event) pairs. -/
def invocations (tr : List Action) : List (Nat × ZEvent) :=
  tr.filterMap fun a =>
    match a with
    | Action.invoke i e => some (i, e)
    | Action.setSt _ _ => none

/-- Whether an action is a built-in-rule state update. -/
def Action.isSetSt : Action → Bool
  | Action.invoke _ _ => false
  | Action.setSt _ _ => true

/-- ZGraphicsView::addItem (src/src/graphics/ZGraphicsView.h):
items_.push_back(item) — appends the reference, duplicates permitted. -/
def addItem (items : List Nat) (x : Nat) : List Nat :=
  items ++ [x]

/-- ZGraphicsView::removeItem (src/src/graphics/ZGraphicsView.h):
items_.erase(std::remove(items_.begin(), items_.end(), item), items_.end())
— removes every occurrence comparing equal (pointer identity). -/
def removeItem (items : List Nat) (x : Nat) : List Nat :=
  items.filter fun y => y != x

/-- A draw call item->draw(backend_.get()) observed through the backend. -/
inductive RenderOp
  | draw (item : Nat)
deriving DecidableEq

/-- ZGraphicsView::render (src/src/graphics/ZGraphicsView.h): iterate the
paint-order sequence from the front, invoking draw once per occurrence. -/
def render : List Nat → List RenderOp
  | [] => []
  | it :: rest => RenderOp.draw it :: render rest

/-- Example callback that enqueues nothing. -/
def cbNone : ZEvent → List ZEvent := fun _ => []

/-- Example registry: two listeners on distinct items 0 and 1, callbacks
enqueue nothing. -/
def exL2 : List Listener := [⟨0, cbNone⟩, ⟨1, cbNone⟩]

/-- Example mouse-click event (a ZMouseEvent with type MouseClick). -/
def eClick : ZEvent := zMouseEventCtor EventType.MouseClick ⟨0, 0⟩ 0 KeyModifier.None

/-- Example mouse-release event (a ZMouseEvent with the spec-modelled
MouseRelease type). -/
def eRelease : ZEvent := zMouseEventCtor EventType.MouseRelease ⟨0, 0⟩ 0 KeyModifier.None

/-- Example non-mouse event (a base ZEvent of type KeyPress). -/
def eKey : ZEvent := zEventCtorDefault EventType.KeyPress

/-- Example initial item states: everything Normal. -/
def stAllNormal : ItemStates := fun _ => WidgetState.Normal

/-- The dispatch result of running exL2 on the single-event queue
[eClick]: states 0 and 1 Pressed, one processed event, four actions. -/
def rExClick : DispatchResult :=
  ⟨[], setState (setState stAllNormal 0 WidgetState.Pressed) 1 WidgetState.Pressed,
   [eClick],
   [Action.invoke 0 eClick, Action.setSt 0 WidgetState.Pressed,
    Action.invoke 1 eClick, Action.setSt 1 WidgetState.Pressed]⟩

/-- Weight of an event under a rank budget, used to bound the number of
while-loop iterations of dispatchEvents: with budget r + 1 an event costs
1 (its own dequeue) plus the budget-r cost of everything the registered
callbacks enqueue for it. -/
def wt (ls : List Listener) : Nat → ZEvent → Nat
  | 0, _ => 1
  | r + 1, e => 1 + (ls.map (fun l => ((l.cb e).map (wt ls r)).sum)).sum

/-- Total weight of a queue, each event taken at its own rank's budget. -/
def qwt (ls : List Listener) (rank : ZEvent → Nat) (q : List ZEvent) : Nat :=
  (q.map (fun e => wt ls (rank e) e)).sum

/-- The dispatch result of running exL2 on the single-event queue [eKey]
(a non-mouse event): states untouched, two invocations, no state update. -/
def rExKey : DispatchResult :=
  ⟨[], stAllNormal, [eKey], [Action.invoke 0 eKey, Action.invoke 1 eKey]⟩

/-- Example initial item states: everything Pressed. -/
def stAllPressed : ItemStates := fun _ => WidgetState.Pressed

/-- The dispatch result of running exL2 on the single-event queue
[eRelease]: both listener items set to Normal, four actions. -/
def rExRelease : DispatchResult :=
  ⟨[], setState (setState stAllPressed 0 WidgetState.Normal) 1 WidgetState.Normal,
   [eRelease],
   [Action.invoke 0 eRelease, Action.setSt 0 WidgetState.Normal,
    Action.invoke 1 eRelease, Action.setSt 1 WidgetState.Normal]⟩

/- ======================= theorems ======================= -/

/-- Helper: for a mouse-variant event of type MouseClick, the listener
loop emits, per listener in registration order, the callback invocation
immediately followed by the built-in Pressed update of that listener's
item. -/
theorem handleListenersAux_acts_click (e : ZEvent) (hm : e.isMouseVariant = true)
    (ht : e.etype = EventType.MouseClick) :
    ∀ (ls : List Listener) (i : Nat) (s : ItemStates),
    (handleListenersAux ls i e s).2.2 =
      (List.enumFrom i ls).flatMap
        (fun p => [Action.invoke p.1 e, Action.setSt p.2.item WidgetState.Pressed]) := by
  cases e with
  | base t ts d => simp [ZEvent.isMouseVariant] at hm
  | mouse t ts pos btn mods =>
    simp only [ZEvent.etype] at ht
    subst ht
    intro ls
    induction ls with
    | nil => intro i s; rfl
    | cons l rest ih =>
      intro i s
      simp [handleListenersAux, builtinRule, List.enumFrom, ih]

/-- Helper: for a mouse-variant event of type MouseClick, the listener
loop leaves an item's state at Pressed exactly when the item is one of
the registered listeners' items, and untouched otherwise. -/
theorem handleListenersAux_states_click (e : ZEvent) (hm : e.isMouseVariant = true)
    (ht : e.etype = EventType.MouseClick) :
    ∀ (ls : List Listener) (i : Nat) (s : ItemStates) (j : Nat),
    (handleListenersAux ls i e s).1 j =
      if j ∈ ls.map (fun l => l.item) then WidgetState.Pressed else s j := by
  cases e with
  | base t ts d => simp [ZEvent.isMouseVariant] at hm
  | mouse t ts pos btn mods =>
    simp only [ZEvent.etype] at ht
    subst ht
    intro ls
    induction ls with
    | nil => intro i s j; rfl
    | cons l rest ih =>
      intro i s j
      have hstep :
          (handleListenersAux (l :: rest) i
            (ZEvent.mouse EventType.MouseClick ts pos btn mods) s).1 =
          (handleListenersAux rest (i + 1)
            (ZEvent.mouse EventType.MouseClick ts pos btn mods)
            (setState s l.item WidgetState.Pressed)).1 := by
        simp [handleListenersAux, builtinRule]
      rw [hstep, ih]
      by_cases h1 : j ∈ rest.map (fun l => l.item)
      · simp [h1]
      · by_cases h2 : j = l.item
        · simp [h1, h2, setState]
        · simp [h1, h2, setState]

/-- C1 counterexample: registry exL2 holds two listeners (items 0 and 1);
dispatching the single queued MouseClick mouse event does not produce the
claimed trace shape "both callback invocations first, then one Pressed
update of a single target item": the code interleaves a Pressed update of
each listener's item right after that listener's callback. -/
theorem dispatch_click_not_after_all_listeners :
    ¬ ∃ t : Nat, dispatchActions exL2 1 [eClick] stAllNormal =
      [Action.invoke 0 eClick, Action.invoke 1 eClick,
       Action.setSt t WidgetState.Pressed] := by
  rintro ⟨t, h⟩
  have heq : dispatchActions exL2 1 [eClick] stAllNormal =
      [Action.invoke 0 eClick, Action.setSt 0 WidgetState.Pressed,
       Action.invoke 1 eClick, Action.setSt 1 WidgetState.Pressed] := rfl
  rw [heq] at h
  simp at h

/-- C1 (amended): for every listener registry and every mouse-variant
event of type MouseClick, the dispatch step for that event applies the
built-in rule once per registered listener, immediately after that
listener's callback (not once after all listeners), and it is each
listener's registered item — events carry no target item — whose state
becomes Pressed; afterwards every registered listener's item is Pressed
and all other items are untouched. -/
theorem dispatch_click_rule_per_listener (ls : List Listener) (e : ZEvent)
    (s : ItemStates) (hm : e.isMouseVariant = true)
    (ht : e.etype = EventType.MouseClick) :
    (handleListeners ls e s).2.2 =
      (List.enumFrom 0 ls).flatMap
        (fun p => [Action.invoke p.1 e, Action.setSt p.2.item WidgetState.Pressed]) ∧
    ∀ j, (handleListeners ls e s).1 j =
      if j ∈ ls.map (fun l => l.item) then WidgetState.Pressed else s j :=
  ⟨handleListenersAux_acts_click e hm ht ls 0 s,
   fun j => handleListenersAux_states_click e hm ht ls 0 s j⟩

/-- C1 witness: the amended per-listener rule at the concrete registry
exL2 and the concrete MouseClick event eClick. -/
theorem dispatch_click_rule_per_listener_witness :
    (handleListeners exL2 eClick stAllNormal).2.2 =
      (List.enumFrom 0 exL2).flatMap
        (fun p => [Action.invoke p.1 eClick, Action.setSt p.2.item WidgetState.Pressed]) ∧
    ∀ j, (handleListeners exL2 eClick stAllNormal).1 j =
      if j ∈ exL2.map (fun l => l.item) then WidgetState.Pressed else stAllNormal j :=
  dispatch_click_rule_per_listener exL2 eClick stAllNormal rfl rfl

/-- C2: EventType::MouseRelease is referenced by the dispatch branch of
ZEventManager.cpp but absent from the closed EventType enum of
ZCommonEnums.h, so the described Normal transition is unreachable in the
source; over the spec-modelled extension of the enum, dispatching a queued
MouseRelease mouse event sets each registered listener's item — not a
single target item — to Normal, interleaved with the callbacks. -/
theorem dispatch_release_evaluation :
    dispatchAux exL2 1 [eRelease] stAllPressed = some rExRelease ∧
    rExRelease.states 0 = WidgetState.Normal ∧
    rExRelease.states 1 = WidgetState.Normal ∧
    EventType.inSource EventType.MouseRelease = false :=
  ⟨rfl, rfl, rfl, rfl⟩

/-- C8: ZRect::deflate returns exactly
{x + left, y + top, width - left - right, height - top - bottom} in exact
integer arithmetic, and (being a pure function of its arguments) leaves
the receiver unchanged. -/
theorem deflate_components (r : ZRect) (p : ZPadding) :
    (r.deflate p).x = r.x + p.left ∧
    (r.deflate p).y = r.y + p.top ∧
    (r.deflate p).width = r.width - p.left - p.right ∧
    (r.deflate p).height = r.height - p.top - p.bottom :=
  ⟨rfl, rfl, rfl, rfl⟩

/-- C10: for every EventType t, the base constructor call ZEvent(t) with
the defaulted device argument yields deviceType = Mouse and timestamp = 0
— also for the non-mouse types KeyPress and TouchStart. -/
theorem zEventCtorDefault_fields (t : EventType) :
    (zEventCtorDefault t).deviceType = InputDeviceType.Mouse ∧
    (zEventCtorDefault t).tstamp = 0 :=
  ⟨rfl, rfl⟩

/-- C9: removeItem deletes exactly the occurrences of the removed
reference: the result is a sublist of the original (so the relative order
of the remaining occurrences is preserved), every other reference keeps
its occurrence count, and no occurrence of the removed reference
remains. -/
theorem removeItem_order_and_counts (items : List Nat) (x y : Nat) :
    List.Sublist (removeItem items x) items ∧
    List.count y (removeItem items x) =
      (if y = x then 0 else List.count y items) := by
  constructor
  · exact List.filter_sublist items
  · by_cases h : y = x
    · subst h
      simp [removeItem, List.count_eq_zero, List.mem_filter]
    · rw [if_neg h]
      exact List.count_filter (by simp [h])

/-- C5 counterexample: with the paint-order sequence [0] already holding
the reference 0, addItem 0 then removeItem 0 yields [], not the original
[0] — removeItem deletes the pre-existing occurrence as well. -/
theorem addItem_removeItem_not_roundtrip :
    ¬ (removeItem (addItem [0] 0) 0 = [0]) := by
  decide

/-- C5 (amended): if the reference did not already occur in the
paint-order sequence, addItem followed immediately by removeItem on that
reference restores the sequence exactly. -/
theorem addItem_removeItem_roundtrip (items : List Nat) (x : Nat)
    (h : x ∉ items) : removeItem (addItem items x) x = items := by
  unfold removeItem addItem
  rw [List.filter_append]
  have h1 : List.filter (fun y => y != x) items = items :=
    List.filter_eq_self.mpr (by
      intro a ha
      simp only [bne_iff_ne, ne_eq]
      intro hax
      exact h (hax ▸ ha))
  have h2 : List.filter (fun y => y != x) [x] = [] := by simp
  rw [h1, h2, List.append_nil]

/-- C5 witness: the amended round-trip at items = [1], x = 0. -/
theorem addItem_removeItem_roundtrip_witness :
    removeItem (addItem [1] 0) 0 = [1] :=
  addItem_removeItem_roundtrip [1] 0 (by decide)

/-- C6: render invokes draw exactly once per occurrence of the paint-order
sequence, from index 0 to the last in registration order (the trace is the
item list mapped to draw calls, same length), and a duplicated reference
is drawn once per occurrence (draw-call counts equal occurrence counts). -/
theorem render_draws_each_occurrence (items : List Nat) (x : Nat) :
    render items = items.map RenderOp.draw ∧
    (render items).length = items.length ∧
    (render items).count (RenderOp.draw x) = items.count x := by
  have hmap : ∀ l : List Nat, render l = l.map RenderOp.draw := by
    intro l
    induction l with
    | nil => rfl
    | cons a t ih => simp [render, ih]
  refine ⟨hmap items, ?_, ?_⟩
  · rw [hmap items, List.length_map]
  · rw [hmap items]
    exact List.count_map_of_injective items RenderOp.draw
      (fun a b hab => by cases hab; rfl) x

/-- Helper: the events enqueued while handling one event do not depend on
the start index or the item states: they are the concatenation of the
callbacks' enqueues in registration order. -/
theorem handleListenersAux_enq (e : ZEvent) :
    ∀ (ls : List Listener) (i : Nat) (s : ItemStates),
    (handleListenersAux ls i e s).2.1 = cbOut ls e := by
  intro ls
  induction ls with
  | nil => intro i s; rfl
  | cons l rest ih =>
    intro i s
    simp [handleListenersAux, cbOut, ih]

/-- Helper: membership in the per-event enqueues comes from some
registered listener's callback. -/
theorem mem_cbOut {e' e : ZEvent} :
    ∀ {ls : List Listener}, e' ∈ cbOut ls e → ∃ l, l ∈ ls ∧ e' ∈ l.cb e := by
  intro ls
  induction ls with
  | nil => intro h; simp [cbOut] at h
  | cons l rest ih =>
    intro h
    rcases List.mem_append.mp h with h1 | h2
    · exact ⟨l, List.mem_cons_self l rest, h1⟩
    · obtain ⟨l', hl', he'⟩ := ih h2
      exact ⟨l', List.mem_cons_of_mem l hl', he'⟩

/-- Helper: a registered listener's callback output lands in the per-event
enqueues. -/
theorem cbOut_mem {e' e : ZEvent} :
    ∀ {ls : List Listener} {l : Listener}, l ∈ ls → e' ∈ l.cb e →
      e' ∈ cbOut ls e := by
  intro ls
  induction ls with
  | nil => intro l hl _; simp at hl
  | cons l0 rest ih =>
    intro l hl he
    rcases List.mem_cons.mp hl with rfl | hl2
    · exact List.mem_append.mpr (Or.inl he)
    · exact List.mem_append.mpr (Or.inr (ih hl2 he))

/-- Helper: invocations distribute over trace concatenation. -/
theorem invocations_append (a b : List Action) :
    invocations (a ++ b) = invocations a ++ invocations b :=
  List.filterMap_append a b _

/-- Helper: the built-in rule never emits a callback invocation. -/
theorem invocations_builtinRule (e : ZEvent) (it : Nat) (s : ItemStates) :
    invocations (builtinRule e it s).2 = [] := by
  cases e with
  | base t ts d => rfl
  | mouse t ts pos btn mods =>
    simp only [builtinRule]
    split
    · rfl
    · split <;> rfl

/-- Helper: handling one event invokes the callbacks of the listeners
`ls` (whose first registration index is `i`) once each, in registration
order, all on that event. -/
theorem invocations_handle (e : ZEvent) :
    ∀ (ls : List Listener) (i : Nat) (s : ItemStates),
    invocations (handleListenersAux ls i e s).2.2 =
      (List.range' i ls.length).map (fun k => (k, e)) := by
  intro ls
  induction ls with
  | nil => intro i s; rfl
  | cons l rest ih =>
    intro i s
    have hv : invocations (handleListenersAux (l :: rest) i e s).2.2 =
        (i, e) :: (invocations (builtinRule e l.item s).2 ++
          invocations (handleListenersAux rest (i + 1) e
            (builtinRule e l.item s).1).2.2) := by
      simp [handleListenersAux, invocations, List.filterMap_append]
    rw [hv, invocations_builtinRule, List.nil_append, ih,
      List.length_cons, List.range'_succ, List.map_cons]

/-- Helper: a completed dispatch pass returns an empty queue, processes
the initially queued events first (in FIFO order) followed by the events
enqueued during the pass, invokes every registered listener once per
processed event in registration order, and processes every event any
callback enqueued for a processed event. -/
theorem dispatchAux_spec (ls : List Listener) :
    ∀ (n : Nat) (q : List ZEvent) (s : ItemStates) (r : DispatchResult),
    dispatchAux ls n q s = some r →
    r.queue = [] ∧
    (∃ rest, r.processed = q ++ rest) ∧
    invocations r.trace =
      r.processed.flatMap (fun e => (List.range' 0 ls.length).map (fun i => (i, e))) ∧
    (∀ l ∈ ls, ∀ e ∈ r.processed, ∀ e', e' ∈ l.cb e → e' ∈ r.processed) := by
  intro n
  induction n with
  | zero =>
    intro q s r h
    cases q with
    | nil =>
      simp only [dispatchAux, Option.some.injEq] at h
      subst h
      refine ⟨rfl, ⟨[], rfl⟩, rfl, ?_⟩
      intro l hl e he
      simp at he
    | cons e rest => simp [dispatchAux] at h
  | succ n ih =>
    intro q s r h
    cases q with
    | nil =>
      simp only [dispatchAux, Option.some.injEq] at h
      subst h
      refine ⟨rfl, ⟨[], rfl⟩, rfl, ?_⟩
      intro l hl e he
      simp at he
    | cons e rest =>
      simp only [dispatchAux] at h
      cases hd : dispatchAux ls n (rest ++ (handleListenersAux ls 0 e s).2.1)
          (handleListenersAux ls 0 e s).1 with
      | none => rw [hd] at h; simp at h
      | some r' =>
        rw [hd] at h
        simp only [Option.some.injEq] at h
        subst h
        obtain ⟨hq', ⟨rest2, hpre⟩, hinv, hclo⟩ := ih _ _ _ hd
        refine ⟨hq', ⟨(handleListenersAux ls 0 e s).2.1 ++ rest2, by
          simp [hpre, List.append_assoc]⟩, ?_, ?_⟩
        · show invocations ((handleListenersAux ls 0 e s).2.2 ++ r'.trace) = _
          rw [invocations_append, invocations_handle, hinv]
          simp
        · intro l hl e0 he0 e'' he''
          rcases List.mem_cons.mp he0 with rfl | h2
          · have hmem : e'' ∈ cbOut ls e0 := cbOut_mem hl he''
            rw [← handleListenersAux_enq e0 ls 0 s] at hmem
            have : e'' ∈ rest ++ (handleListenersAux ls 0 e0 s).2.1 :=
              List.mem_append.mpr (Or.inr hmem)
            have : e'' ∈ r'.processed := by
              rw [hpre]
              exact List.mem_append.mpr (Or.inl this)
            exact List.mem_cons_of_mem _ this
          · exact List.mem_cons_of_mem _ (hclo l hl e0 h2 e'' he'')

/-- C3: a single dispatchEvents pass that completes invokes each
registered listener's callback exactly once per dequeued event, with the
events processed in the exact FIFO order they were queued (the initially
queued events come first, in queue order) and, within each event, the
listeners invoked in their registration order 0, 1, …, N-1. -/
theorem dispatch_invokes_listeners_in_order (ls : List Listener) (n : Nat)
    (q : List ZEvent) (s : ItemStates) (r : DispatchResult)
    (h : dispatchAux ls n q s = some r) :
    invocations r.trace =
      r.processed.flatMap (fun e => (List.range ls.length).map (fun i => (i, e))) ∧
    ∃ rest, r.processed = q ++ rest := by
  obtain ⟨_, h2, h3, _⟩ := dispatchAux_spec ls n q s r h
  refine ⟨?_, h2⟩
  rw [List.range_eq_range']
  exact h3

/-- C3 witness: the concrete pass of registry exL2 over the queue
[eClick]. -/
theorem dispatch_invokes_listeners_in_order_witness :
    invocations rExClick.trace =
      rExClick.processed.flatMap
        (fun e => (List.range exL2.length).map (fun i => (i, e))) ∧
    ∃ rest, rExClick.processed = [eClick] ++ rest :=
  dispatch_invokes_listeners_in_order exL2 1 [eClick] stAllNormal rExClick rfl

/-- Helper: handling a non-mouse event (the dynamic cast to ZMouseEvent
fails) leaves the item states untouched and emits no setState action. -/
theorem handleListenersAux_base (e : ZEvent) (hm : e.isMouseVariant = false) :
    ∀ (ls : List Listener) (i : Nat) (s : ItemStates),
    (handleListenersAux ls i e s).1 = s ∧
    ∀ a ∈ (handleListenersAux ls i e s).2.2, a.isSetSt = false := by
  cases e with
  | mouse t ts pos btn mods => simp [ZEvent.isMouseVariant] at hm
  | base t ts d =>
    intro ls
    induction ls with
    | nil =>
      intro i s
      exact ⟨rfl, by intro a ha; simp [handleListenersAux] at ha⟩
    | cons l rest ih =>
      intro i s
      constructor
      · simpa [handleListenersAux, builtinRule] using (ih (i + 1) s).1
      · intro a ha
        simp only [handleListenersAux, builtinRule, List.nil_append,
          List.mem_cons] at ha
        rcases ha with rfl | ha
        · rfl
        · exact (ih (i + 1) s).2 a ha

/-- Helper (∀-form of C4): if every queued event is a non-mouse variant
and every event any callback enqueues is a non-mouse variant, a completed
dispatch pass leaves the item states unchanged and its trace holds no
setState action. -/
theorem dispatchAux_base_frame (ls : List Listener)
    (hcb : ∀ l ∈ ls, ∀ e e', e' ∈ l.cb e → e'.isMouseVariant = false) :
    ∀ (n : Nat) (q : List ZEvent) (s : ItemStates) (r : DispatchResult),
    dispatchAux ls n q s = some r →
    (∀ e ∈ q, e.isMouseVariant = false) →
    r.states = s ∧ ∀ a ∈ r.trace, a.isSetSt = false := by
  intro n
  induction n with
  | zero =>
    intro q s r h hq
    cases q with
    | nil =>
      simp only [dispatchAux, Option.some.injEq] at h
      subst h
      exact ⟨rfl, by intro a ha; simp at ha⟩
    | cons e rest => simp [dispatchAux] at h
  | succ n ih =>
    intro q s r h hq
    cases q with
    | nil =>
      simp only [dispatchAux, Option.some.injEq] at h
      subst h
      exact ⟨rfl, by intro a ha; simp at ha⟩
    | cons e rest =>
      simp only [dispatchAux] at h
      have hbase := handleListenersAux_base e (hq e (List.mem_cons_self e rest)) ls 0 s
      cases hd : dispatchAux ls n (rest ++ (handleListenersAux ls 0 e s).2.1)
          (handleListenersAux ls 0 e s).1 with
      | none => rw [hd] at h; simp at h
      | some r' =>
        rw [hd] at h
        simp only [Option.some.injEq] at h
        subst h
        rw [hbase.1] at hd
        have hq' : ∀ e0 ∈ rest ++ (handleListenersAux ls 0 e s).2.1,
            e0.isMouseVariant = false := by
          intro e0 he0
          rcases List.mem_append.mp he0 with h1 | h2
          · exact hq e0 (List.mem_cons_of_mem e h1)
          · rw [handleListenersAux_enq] at h2
            obtain ⟨l, hl, hcbm⟩ := mem_cbOut h2
            exact hcb l hl e e0 hcbm
        obtain ⟨hst, htr⟩ := ih _ _ _ hd hq'
        refine ⟨hst, ?_⟩
        intro a ha
        rcases List.mem_append.mp ha with h1 | h2
        · exact hbase.2 a h1
        · exact htr a h2

/-- C4: for every completed dispatch pass whose queue holds only non-mouse
variants (so the dynamic cast to ZMouseEvent fails on each event) and
whose callbacks enqueue only non-mouse variants, the built-in rule alters
no item state: the final states equal the initial states and the trace
holds no setState action. -/
theorem dispatch_non_mouse_frame (ls : List Listener) (n : Nat)
    (q : List ZEvent) (s : ItemStates) (r : DispatchResult)
    (h : dispatchAux ls n q s = some r)
    (hq : ∀ e ∈ q, e.isMouseVariant = false)
    (hcb : ∀ l ∈ ls, ∀ e e', e' ∈ l.cb e → e'.isMouseVariant = false) :
    r.states = s ∧ ∀ a ∈ r.trace, a.isSetSt = false :=
  dispatchAux_base_frame ls hcb n q s r h hq

/-- C4 witness: registry exL2 dispatching the single non-mouse event eKey
leaves the states exactly stAllNormal and emits only invocations. -/
theorem dispatch_non_mouse_frame_witness :
    rExKey.states = stAllNormal ∧ ∀ a ∈ rExKey.trace, a.isSetSt = false :=
  dispatch_non_mouse_frame exL2 1 [eKey] stAllNormal rExKey rfl
    (by
      intro e he
      rw [List.mem_singleton] at he
      subst he
      rfl)
    (by
      intro l hl e e' he'
      simp only [exL2, List.mem_cons, List.not_mem_nil, or_false] at hl
      rcases hl with rfl | rfl <;> simp [cbNone] at he')

/-- Helper: every event weighs at least one loop iteration. -/
theorem one_le_wt (ls : List Listener) (r : Nat) (e : ZEvent) :
    1 ≤ wt ls r e := by
  cases r with
  | zero => exact le_refl 1
  | succ r => exact Nat.le_add_right 1 _

/-- Helper: event weight grows with the rank budget (one step). -/
theorem wt_le_wt_succ (ls : List Listener) :
    ∀ (r : Nat) (e : ZEvent), wt ls r e ≤ wt ls (r + 1) e := by
  intro r
  induction r with
  | zero =>
    intro e
    exact Nat.le_add_right 1 _
  | succ r ih =>
    intro e
    simp only [wt]
    refine Nat.add_le_add_left (List.sum_le_sum ?_) 1
    intro l hl
    exact List.sum_le_sum fun x _ => ih x

/-- Helper: event weight is monotone in the rank budget. -/
theorem wt_mono (ls : List Listener) {r r' : Nat} (h : r ≤ r') (e : ZEvent) :
    wt ls r e ≤ wt ls r' e := by
  induction h with
  | refl => exact le_refl _
  | step _ ih => exact le_trans ih (wt_le_wt_succ ls _ e)

/-- Helper: queue weight of a concatenation. -/
theorem qwt_append (ls : List Listener) (rank : ZEvent → Nat)
    (a b : List ZEvent) :
    qwt ls rank (a ++ b) = qwt ls rank a + qwt ls rank b := by
  simp [qwt]

/-- Helper: queue weight of a cons. -/
theorem qwt_cons (ls : List Listener) (rank : ZEvent → Nat) (e : ZEvent)
    (q : List ZEvent) :
    qwt ls rank (e :: q) = wt ls (rank e) e + qwt ls rank q := by
  simp [qwt]

/-- Helper: if no callback of `ls` enqueues anything for `e`, the
per-event enqueues are empty. -/
theorem cbOut_eq_nil {e : ZEvent} :
    ∀ {ls : List Listener}, (∀ l ∈ ls, l.cb e = []) → cbOut ls e = [] := by
  intro ls
  induction ls with
  | nil => intro _; rfl
  | cons l rest ih =>
    intro h
    simp only [cbOut]
    rw [h l (List.mem_cons_self l rest), List.nil_append]
    exact ih fun l' hl' => h l' (List.mem_cons_of_mem l hl')

/-- Helper: with every callback enqueue bounded in rank by `k`, the queue
weight of the per-event enqueues of a listener list is at most the inner
sum of the budget-(k) weights. -/
theorem qwt_cbOut_le_sum (ls0 : List Listener) (rank : ZEvent → Nat)
    (k : Nat) (e : ZEvent) :
    ∀ ls : List Listener, (∀ l ∈ ls, ∀ e', e' ∈ l.cb e → rank e' ≤ k) →
    qwt ls0 rank (cbOut ls e) ≤
      (ls.map (fun l => ((l.cb e).map (wt ls0 k)).sum)).sum := by
  intro ls
  induction ls with
  | nil => intro _; simp [cbOut, qwt]
  | cons l rest ih =>
    intro h
    simp only [cbOut, List.map_cons, List.sum_cons]
    rw [qwt_append]
    have h1 : qwt ls0 rank (l.cb e) ≤ ((l.cb e).map (wt ls0 k)).sum := by
      unfold qwt
      exact List.sum_le_sum fun e' he' =>
        wt_mono ls0 (h l (List.mem_cons_self l rest) e' he') e'
    have h2 := ih fun l' hl' => h l' (List.mem_cons_of_mem l hl')
    omega

/-- Helper: under a rank strictly decreasing along callback enqueues, an
event's weight strictly dominates the weight of everything its handling
enqueues. -/
theorem qwt_cbOut_lt (ls : List Listener) (rank : ZEvent → Nat)
    (hr : ∀ l ∈ ls, ∀ e e', e' ∈ l.cb e → rank e' < rank e) (e : ZEvent) :
    qwt ls rank (cbOut ls e) + 1 ≤ wt ls (rank e) e := by
  cases hk : rank e with
  | zero =>
    have hnil : ∀ l ∈ ls, l.cb e = [] := by
      intro l hl
      rcases h' : l.cb e with _ | ⟨e', tl⟩
      · rfl
      · exfalso
        have := hr l hl e e' (by rw [h']; exact List.mem_cons_self e' tl)
        omega
    rw [cbOut_eq_nil hnil]
    simp [qwt, wt]
  | succ k =>
    have hb : ∀ l ∈ ls, ∀ e', e' ∈ l.cb e → rank e' ≤ k := by
      intro l hl e' he'
      have := hr l hl e e' he'
      omega
    have h1 := qwt_cbOut_le_sum ls rank k e ls hb
    simp only [wt]
    omega

/-- Helper: any queue whose weight fits in the fuel yields a completed
dispatch pass. -/
theorem dispatchAux_isSome (ls : List Listener) (rank : ZEvent → Nat)
    (hr : ∀ l ∈ ls, ∀ e e', e' ∈ l.cb e → rank e' < rank e) :
    ∀ (n : Nat) (q : List ZEvent) (s : ItemStates),
    qwt ls rank q ≤ n → (dispatchAux ls n q s).isSome = true := by
  intro n
  induction n with
  | zero =>
    intro q s hq
    cases q with
    | nil => rfl
    | cons e rest =>
      exfalso
      have h1 := one_le_wt ls (rank e) e
      rw [qwt_cons] at hq
      omega
  | succ n ih =>
    intro q s hq
    cases q with
    | nil => rfl
    | cons e rest =>
      simp only [dispatchAux]
      have hmeas : qwt ls rank (rest ++ (handleListenersAux ls 0 e s).2.1) ≤ n := by
        rw [handleListenersAux_enq, qwt_append]
        have hkey := qwt_cbOut_lt ls rank hr e
        rw [qwt_cons] at hq
        omega
      have hsome := ih _ (handleListenersAux ls 0 e s).1 hmeas
      cases hd : dispatchAux ls n (rest ++ (handleListenersAux ls 0 e s).2.1)
          (handleListenersAux ls 0 e s).1 with
      | none => rw [hd] at hsome; simp at hsome
      | some r => rfl

/-- C7: whenever a rank function witnesses that the callbacks enqueue only
finitely many new events during the pass (each enqueued event ranks
strictly below the event whose handling enqueued it, so enqueue chains
cannot go on forever and the total is finite), dispatchEvents terminates:
some fuel completes the pass, the event queue is empty at return, the
initially queued events are all dispatched first in order, and every
event enqueued mid-pass is also dispatched before the pass ends. -/
theorem dispatch_terminates_queue_empty (ls : List Listener)
    (q : List ZEvent) (s : ItemStates) (rank : ZEvent → Nat)
    (hr : ∀ l ∈ ls, ∀ e e', e' ∈ l.cb e → rank e' < rank e) :
    ∃ (n : Nat) (r : DispatchResult),
      dispatchAux ls n q s = some r ∧
      r.queue = [] ∧
      (∃ rest, r.processed = q ++ rest) ∧
      (∀ l ∈ ls, ∀ e ∈ r.processed, ∀ e', e' ∈ l.cb e → e' ∈ r.processed) := by
  have hs := dispatchAux_isSome ls rank hr (qwt ls rank q) q s (le_refl _)
  cases hd : dispatchAux ls (qwt ls rank q) q s with
  | none => rw [hd] at hs; simp at hs
  | some r =>
    obtain ⟨h1, h2, _, h4⟩ := dispatchAux_spec ls _ q s r hd
    exact ⟨_, r, hd, h1, h2, h4⟩

/-- C7 witness: the concrete registry exL2 (callbacks enqueue nothing, so
the constant rank works) over the two-event queue [eClick, eKey]. -/
theorem dispatch_terminates_queue_empty_witness :
    ∃ (n : Nat) (r : DispatchResult),
      dispatchAux exL2 n [eClick, eKey] stAllNormal = some r ∧
      r.queue = [] ∧
      (∃ rest, r.processed = [eClick, eKey] ++ rest) ∧
      (∀ l ∈ exL2, ∀ e ∈ r.processed, ∀ e', e' ∈ l.cb e → e' ∈ r.processed) :=
  dispatch_terminates_queue_empty exL2 [eClick, eKey] stAllNormal (fun _ => 0)
    (by
      intro l hl e e' he'
      simp only [exL2, List.mem_cons, List.not_mem_nil, or_false] at hl
      rcases hl with rfl | rfl <;> simp [cbNone] at he')

end ZincX
